import Mathlib

/-!
# Verification of `data-structures-in-rust` collection components

Shallow embedding of three components of the repository:

* `src/queue_with_stack.rs` — a FIFO queue built from two `Vec` stacks
  (`Queue(Vec<T>, Vec<T>)`, field 0 the inbox, field 1 the outbox);
* `src/collections/stack_with_queue.rs` — a LIFO stack built from two
  `VecDeque` queues (`Stack(VecDeque<T>, VecDeque<T>)`);
* `src/min_stack.rs` — a stack of `(value, running_min)` pairs with O(1)
  minimum (`MinStack(Vec<(T, T)>)`).

A Rust `Vec` is modelled as a `List` in the same order (index 0 first, the
last list element is the `Vec`'s top/end); `Vec::push` appends at the end and
`Vec::pop` removes the last element.  A `VecDeque` is a `List` whose head is
the deque's front: `push_back` appends at the end, `pop_front` takes the head.
Methods that mutate `&mut self` become functions returning the new state
(paired with the returned value where there is one).
-/

namespace QueueWithStack

/-- `Queue(Vec<T>, Vec<T>)`: field 0 (`inbox`) receives pushes, field 1
(`outbox`) serves pops.  Lists are in `Vec` order (last element = top). -/
structure Queue (α : Type) where
  inbox : List α
  outbox : List α
deriving DecidableEq

/-- `Queue::new`: both stacks empty. -/
def Queue.new {α : Type} : Queue α := ⟨[], []⟩

/-- `Queue::push`: `self.0.push(item)` — append to the inbox. -/
def Queue.push {α : Type} (q : Queue α) (a : α) : Queue α :=
  ⟨q.inbox ++ [a], q.outbox⟩

/-- `Queue::move_to_second_stack`: take the inbox (leaving it empty) and
extend the outbox with its reversal. -/
def Queue.moveToSecondStack {α : Type} (q : Queue α) : Queue α :=
  ⟨[], q.outbox ++ q.inbox.reverse⟩

/-- `Queue::pop`: `self.move_to_second_stack(); self.1.pop()` — the transfer
is unconditional, then the outbox's last element is removed and returned. -/
def Queue.pop {α : Type} (q : Queue α) : Option α × Queue α :=
  let q' := q.moveToSecondStack
  (q'.outbox.getLast?, ⟨q'.inbox, q'.outbox.dropLast⟩)

/-- `impl FromIterator for Queue`: start from `Queue::new` and push each
element in iteration order. -/
def Queue.fromIter {α : Type} (l : List α) : Queue α :=
  l.foldl Queue.push Queue.new

/-- `impl IntoIterator for Queue`: `self.0.into_iter().chain(self.1)`. -/
def Queue.intoIter {α : Type} (q : Queue α) : List α :=
  q.inbox ++ q.outbox

/-- A client operation on the queue. -/
inductive Op (α : Type) where
  | push (a : α)
  | pop
deriving DecidableEq

/-- Run one operation, discarding the popped value. -/
def runOp {α : Type} (q : Queue α) : Op α → Queue α
  | .push a => q.push a
  | .pop => (q.pop).2

/-- Run a list of operations from a given state. -/
def runOps {α : Type} (q : Queue α) (ops : List (Op α)) : Queue α :=
  ops.foldl runOp q

/-- Run a list of operations, collecting every pop's result (including
`none`) in order. -/
def popResults {α : Type} (q : Queue α) : List (Op α) → List (Option α)
  | [] => []
  | .push a :: rest => popResults (q.push a) rest
  | .pop :: rest => (q.pop).1 :: popResults (q.pop).2 rest

/-- Run a list of operations, returning the final state together with the
list of values actually dequeued (dropping `none` results). -/
def runTrace {α : Type} (q : Queue α) (acc : List α) :
    List (Op α) → Queue α × List α
  | [] => (q, acc)
  | .push a :: rest => runTrace (q.push a) acc rest
  | .pop :: rest => runTrace (q.pop).2 (acc ++ ((q.pop).1).toList) rest

/-- The values pushed by a list of operations, in order. -/
def pushedOf {α : Type} : List (Op α) → List α
  | [] => []
  | .push a :: rest => a :: pushedOf rest
  | .pop :: rest => pushedOf rest

/-- Pop `n` times in a row, collecting the results. -/
def popN {α : Type} (q : Queue α) : Nat → List (Option α)
  | 0 => []
  | n + 1 => (q.pop).1 :: popN (q.pop).2 n

end QueueWithStack

namespace QueueWithStack

theorem pop_outbox_only {α : Type} (xs : List α) :
    Queue.pop ⟨[], xs⟩ = (xs.getLast?, ⟨[], xs.dropLast⟩) := by
  simp [Queue.pop, Queue.moveToSecondStack]

theorem popN_outbox_only {α : Type} (xs : List α) :
    popN (⟨[], xs⟩ : Queue α) xs.length = xs.reverse.map some := by
  induction xs using List.reverseRecOn with
  | nil => simp [popN]
  | append_singleton ys a _ih =>
    rw [List.length_append]
    simp only [List.length_singleton, popN, pop_outbox_only,
      List.getLast?_concat, List.dropLast_concat]
    simp [_ih]

theorem foldl_push {α : Type} (l : List α) (q : Queue α) :
    l.foldl Queue.push q = ⟨q.inbox ++ l, q.outbox⟩ := by
  induction l generalizing q with
  | nil => simp
  | cons a l ih => simp [Queue.push, ih]

theorem fromIter_eq {α : Type} (l : List α) :
    Queue.fromIter l = (⟨l, []⟩ : Queue α) := by
  simp [Queue.fromIter, foldl_push, Queue.new]

theorem pop_inbox_eq_pop_rev {α : Type} (l : List α) :
    Queue.pop (⟨l, []⟩ : Queue α) = Queue.pop ⟨[], l.reverse⟩ := by
  simp [Queue.pop, Queue.moveToSecondStack]

theorem popN_succ {α : Type} (q : Queue α) (n : Nat) :
    popN q (n + 1) = (q.pop).1 :: popN (q.pop).2 n := rfl

theorem popN_fresh {α : Type} (l : List α) :
    popN (⟨l, []⟩ : Queue α) l.length = l.map some := by
  cases l with
  | nil => simp [popN]
  | cons a t =>
    rw [List.length_cons, popN_succ, pop_inbox_eq_pop_rev, ← popN_succ]
    have h3 : t.length + 1 = (a :: t).reverse.length := by simp
    rw [h3, popN_outbox_only]
    simp

theorem runOps_pushes {α : Type} (l : List α) (q : Queue α) :
    runOps q (l.map Op.push) = l.foldl Queue.push q := by
  simp [runOps, List.foldl_map, runOp]

theorem runTrace_pushes {α : Type} (l : List α) (q : Queue α) (acc : List α) :
    runTrace q acc (l.map Op.push) = (l.foldl Queue.push q, acc) := by
  induction l generalizing q with
  | nil => simp [runTrace]
  | cons a t ih => simp [runTrace, ih]

theorem pushedOf_map_push {α : Type} (l : List α) :
    pushedOf (l.map Op.push) = l := by
  induction l with
  | nil => rfl
  | cons a t ih => simp [pushedOf, ih]

theorem dropLast_append_getLast?_toList {α : Type} (xs : List α) :
    xs.dropLast ++ xs.getLast?.toList = xs := by
  induction xs using List.reverseRecOn with
  | nil => rfl
  | append_singleton ys a _ih =>
    simp [List.getLast?_concat, List.dropLast_concat]

theorem coe_append {α : Type} (s t : List α) :
    ((s ++ t : List α) : Multiset α) = ↑s + ↑t :=
  (Multiset.coe_add s t).symm

theorem pop_conserves {α : Type} (q : Queue α) :
    (↑(Queue.intoIter (q.pop).2) + ↑(((q.pop).1).toList) : Multiset α)
      = ↑(Queue.intoIter q) := by
  show (↑((q.outbox ++ q.inbox.reverse).dropLast)
      + ↑((q.outbox ++ q.inbox.reverse).getLast?.toList) : Multiset α)
      = ↑(q.inbox ++ q.outbox)
  rw [Multiset.coe_add, dropLast_append_getLast?_toList, Multiset.coe_eq_coe]
  have h1 : List.Perm (q.outbox ++ q.inbox.reverse) (q.outbox ++ q.inbox) :=
    (q.inbox.reverse_perm).append_left q.outbox
  exact h1.trans List.perm_append_comm

theorem runTrace_conserves {α : Type} (ops : List (Op α)) :
    ∀ (q : Queue α) (acc : List α),
    (↑(Queue.intoIter (runTrace q acc ops).1) + ↑((runTrace q acc ops).2)
      : Multiset α) = ↑(Queue.intoIter q) + ↑acc + ↑(pushedOf ops) := by
  induction ops with
  | nil => intro q acc; simp [runTrace, pushedOf]
  | cons op rest ih =>
    intro q acc
    cases op with
    | push a =>
      rw [show runTrace q acc (Op.push a :: rest) = runTrace (q.push a) acc rest from rfl,
        ih]
      show (↑(q.inbox ++ [a] ++ q.outbox) : Multiset α) + ↑acc + ↑(pushedOf rest)
        = ↑(q.inbox ++ q.outbox) + ↑acc + ↑(a :: pushedOf rest)
      rw [show (a :: pushedOf rest) = [a] ++ pushedOf rest from rfl]
      simp only [coe_append]
      abel
    | pop =>
      rw [show runTrace q acc (Op.pop :: rest)
          = runTrace (q.pop).2 (acc ++ ((q.pop).1).toList) rest from rfl, ih]
      have h := pop_conserves q
      rw [← h]
      simp only [coe_append]
      abel

end QueueWithStack

namespace QueueWithStack

/-- C8: **QueueFromStacks FIFO law.**  For every list of values `l` pushed
onto a fresh queue with no interleaved pops (equivalently, the queue built by
`from_iterator`, which is exactly pushing each element in iteration order),
`l.length` successive pops return `some l[0], some l[1], ...` in order. -/
theorem fifo_law (l : List Nat) :
    popN (Queue.fromIter l) l.length = l.map some ∧
    Queue.fromIter l = runOps Queue.new (l.map Op.push) := by
  constructor
  · rw [fromIter_eq, popN_fresh]
  · rw [runOps_pushes]; rfl

/-- C10: `Queue::pop` unconditionally calls `move_to_second_stack`, which
takes the whole inbox (leaving it empty) and appends its reversal onto the
outbox; hence after every `pop`, in any state, the inbox is empty. -/
theorem pop_unconditionally_empties_inbox (q : Queue Nat) :
    ((q.pop).2).inbox = [] ∧
    (q.moveToSecondStack).inbox = [] ∧
    (q.moveToSecondStack).outbox = q.outbox ++ q.inbox.reverse :=
  ⟨rfl, rfl, rfl⟩

/-- C2 evaluation: the claimed interleavings fail on the code.  Because the
transfer is unconditional (it stacks the reversed inbox on top of a non-empty
outbox), `push 1; push 2; pop; push 3; pop; pop` returns
`some 1, some 3, some 2` (not `some 1, some 2, some 3`), and
`push 1,2,3; pop; push 4; pop; pop; pop; pop` returns
`some 1, some 4, some 2, some 3, none` (not `some 1, some 2, some 3, some 4,
none`). -/
theorem interleaved_pop_eval :
    popResults (Queue.new : Queue Nat)
      [Op.push 1, Op.push 2, Op.pop, Op.push 3, Op.pop, Op.pop]
      = [some 1, some 3, some 2] ∧
    popResults (Queue.new : Queue Nat)
      [Op.push 1, Op.push 2, Op.push 3, Op.pop, Op.push 4,
       Op.pop, Op.pop, Op.pop, Op.pop]
      = [some 1, some 4, some 2, some 3, none] ∧
    ([some 1, some 3, some 2] : List (Option Nat)) ≠ [some 1, some 2, some 3] := by
  decide

/-- C3 counterexample: after `push 1; push 2; pop; push 3` (a reachable
state; the pop dequeued 1, so the not-yet-dequeued elements in push order are
`[2, 3]`), consuming the iterator yields `[3, 2]`, not `[2, 3]`. -/
theorem intoIter_not_fifo_counterexample :
    Queue.intoIter (runOps (Queue.new : Queue Nat)
      [Op.push 1, Op.push 2, Op.pop, Op.push 3]) = [3, 2] ∧
    Queue.intoIter (runOps (Queue.new : Queue Nat)
      [Op.push 1, Op.push 2, Op.pop, Op.push 3]) ≠ [2, 3] := by
  decide

/-- C3 amended: for every sequence of operations on a fresh queue, consuming
the iterator yields exactly the not-yet-dequeued elements, each exactly once
— as multisets, the iterator's output plus the values already returned by
`pop` equal the values pushed — but the order is the inbox (elements pushed
since the last transfer, in push order) followed by the outbox bottom-to-top;
the original push order is guaranteed when no pop has occurred (push-only
histories). -/
theorem intoIter_amended (ops : List (Op Nat)) (l : List Nat) :
    ((↑(Queue.intoIter (runTrace Queue.new [] ops).1)
      + ↑((runTrace Queue.new [] ops).2) : Multiset Nat) = ↑(pushedOf ops)) ∧
    Queue.intoIter (runTrace Queue.new [] (l.map Op.push)).1
      = pushedOf (l.map Op.push) := by
  constructor
  · rw [runTrace_conserves]
    simp [Queue.new, Queue.intoIter]
  · rw [runTrace_pushes, pushedOf_map_push, foldl_push]
    simp [Queue.new, Queue.intoIter]

end QueueWithStack

namespace StackWithQueue

/-- `Stack(VecDeque<T>, VecDeque<T>)`: field 0 (`primary`) receives pushes,
field 1 (`secondary`) is written by `move_to_second`.  Lists are in deque
order with the head at the front. -/
structure Stack (α : Type) where
  primary : List α
  secondary : List α
deriving DecidableEq

/-- `Stack::new`: both queues empty. -/
def Stack.new {α : Type} : Stack α := ⟨[], []⟩

/-- `Stack::push`: `self.0.push_back(item)`. -/
def Stack.push {α : Type} (s : Stack α) (a : α) : Stack α :=
  ⟨s.primary ++ [a], s.secondary⟩

/-- `Stack::move_to_second`: drain `self.0` front-to-back into `temp` (so
`temp` equals the old primary in order), then assign
`self.1 = temp.into_iter().rev().collect()` — the old secondary is
overwritten, not appended to. -/
def Stack.moveToSecond {α : Type} (s : Stack α) : Stack α :=
  ⟨[], s.primary.reverse⟩

/-- `Stack::pop`: `self.move_to_second(); self.1.pop_front()`. -/
def Stack.pop {α : Type} (s : Stack α) : Option α × Stack α :=
  let s' := s.moveToSecond
  (s'.secondary.head?, ⟨s'.primary, s'.secondary.tail⟩)

/-- A client operation on the stack. -/
inductive Op (α : Type) where
  | push (a : α)
  | pop
deriving DecidableEq

/-- Run one operation, discarding the popped value. -/
def runOp {α : Type} (s : Stack α) : Op α → Stack α
  | .push a => s.push a
  | .pop => (s.pop).2

/-- Run a list of operations from a given state. -/
def runOps {α : Type} (s : Stack α) (ops : List (Op α)) : Stack α :=
  ops.foldl runOp s

/-- Run a list of operations, collecting every pop's result (including
`none`) in order. -/
def popResults {α : Type} (s : Stack α) : List (Op α) → List (Option α)
  | [] => []
  | .push a :: rest => popResults (s.push a) rest
  | .pop :: rest => (s.pop).1 :: popResults (s.pop).2 rest

/-- C1 evaluation: the LIFO law fails at n = 2.  Pushing `1, 2` on a fresh
stack and popping twice returns `some 2, none` — `move_to_second` overwrites
the secondary queue (which held the remaining element `1`) with the reversal
of the now-empty primary, so the second pop loses `1` instead of returning
it.  The claim requires `some 2, some 1`. -/
theorem lifo_law_fails_eval :
    popResults (Stack.new : Stack Nat) [Op.push 1, Op.push 2, Op.pop, Op.pop]
      = [some 2, none] ∧
    ([some 2, none] : List (Option Nat)) ≠ [some 2, some 1] := by
  decide

/-- C4 evaluation: atomicity of the absent result fails for StackFromQueues.
In the reachable state after `push 1; push 2; pop` (primary empty, secondary
`[1]`), a further `pop` returns `none` yet mutates the state: it wipes the
secondary queue, losing the element `1`. -/
theorem pop_none_loses_element_eval :
    (runOps (Stack.new : Stack Nat) [Op.push 1, Op.push 2, Op.pop]).secondary = [1] ∧
    ((runOps (Stack.new : Stack Nat) [Op.push 1, Op.push 2, Op.pop]).pop).1 = none ∧
    ((runOps (Stack.new : Stack Nat) [Op.push 1, Op.push 2, Op.pop]).pop).2
      ≠ runOps (Stack.new : Stack Nat) [Op.push 1, Op.push 2, Op.pop] := by
  decide

/-- C5 evaluation: the between-operations invariant fails.  After the
operation sequence `push 1; push 2; pop` from a fresh stack, the secondary
queue holds `[1]` (it is not empty) and the primary is empty — `pop` drains
primary into secondary but never swaps the roles back, so the live element
sits in the secondary queue. -/
theorem secondary_invariant_fails_eval :
    (runOps (Stack.new : Stack Nat) [Op.push 1, Op.push 2, Op.pop]).secondary ≠ [] ∧
    (runOps (Stack.new : Stack Nat) [Op.push 1, Op.push 2, Op.pop]).primary = [] ∧
    (runOps (Stack.new : Stack Nat) [Op.push 1, Op.push 2, Op.pop]).secondary = [1] := by
  decide

end StackWithQueue

/-- `MinStack(Vec<(T, T)>)`: each entry is a `(value, running_min)` pair;
the list is in `Vec` order, the last element is the top of the stack. -/
structure MinStack (α : Type) where
  entries : List (α × α)
deriving DecidableEq

namespace MinStack

variable {α : Type}

/-- `MinStack::new`. -/
def new : MinStack α := ⟨[]⟩

/-- `MinStack::min`: `self.0.last().map(|item| item.1.clone())`. -/
def min (s : MinStack α) : Option α :=
  (s.entries.getLast?).map Prod.snd

/-- `MinStack::peek`: `self.0.last().map(|item| item.0.clone())`. -/
def peek (s : MinStack α) : Option α :=
  (s.entries.getLast?).map Prod.fst

/-- `MinStack::push`, kept fallible exactly as the source is written: when
the stack is non-empty it computes `self.min().unwrap()`; the `unwrap` of a
`None` (a panic) is modelled as `none`. -/
def push? [LinearOrder α] (s : MinStack α) (a : α) : Option (MinStack α) :=
  if !s.entries.isEmpty then
    (s.min).map (fun currMin => ⟨s.entries ++ [(a, Min.min currMin a)]⟩)
  else
    some ⟨s.entries ++ [(a, a)]⟩

/-- Total form of `MinStack::push`; `push?_eq_some_push` proves the two
agree on every state (the `unwrap` never panics). -/
def push [LinearOrder α] (s : MinStack α) (a : α) : MinStack α :=
  match s.min with
  | some currMin => ⟨s.entries ++ [(a, Min.min currMin a)]⟩
  | none => ⟨s.entries ++ [(a, a)]⟩

/-- `MinStack::pop`: `self.0.pop()` and keep only the value component. -/
def pop (s : MinStack α) : Option α × MinStack α :=
  ((s.entries.getLast?).map Prod.fst, ⟨s.entries.dropLast⟩)

/-- `MinStack::clear`: `self.0.clear()` removes all entries. -/
def clear (_s : MinStack α) : MinStack α := ⟨[]⟩

/-- `MinStack::append`: take `other` (leaving it empty) and push each of its
entries' value components, in order, onto `self` via the normal push path.
Returns the pair (new `self`, new `other`). -/
def append [LinearOrder α] (s other : MinStack α) : MinStack α × MinStack α :=
  (other.entries.foldl (fun acc item => acc.push item.1) s, ⟨[]⟩)

/-- `MinStack::from`: push each element of the vector in order. -/
def fromVec [LinearOrder α] (l : List α) : MinStack α :=
  l.foldl push new

/-- A client operation on a `MinStack`.  `append other` appends a stack
whose entry list is `other` (its running-min components are irrelevant:
`append` only reads the value components). -/
inductive MOp (α : Type) where
  | push (a : α)
  | pop
  | clear
  | append (other : List (α × α))
deriving DecidableEq

/-- Run one operation, discarding any returned value. -/
def runMOp [LinearOrder α] (s : MinStack α) : MOp α → MinStack α
  | .push a => s.push a
  | .pop => (s.pop).2
  | .clear => s.clear
  | .append other => (s.append ⟨other⟩).1

/-- Run a list of operations on a fresh `MinStack`. -/
def runMOps [LinearOrder α] (ops : List (MOp α)) : MinStack α :=
  ops.foldl runMOp new

/-- The running minimums of a list: element `i` of the result is the minimum
of the first `i + 1` elements of the input. -/
def runningMins [LinearOrder α] : List α → List α
  | [] => []
  | a :: l => a :: (runningMins l).map (Min.min a)

/-- The minimum of a list, `none` when it is empty. -/
def listMin? [LinearOrder α] : List α → Option α
  | [] => none
  | a :: l =>
    some (match listMin? l with
          | none => a
          | some m => Min.min a m)

/-- Fold one more element into an optional minimum. -/
def optMin [LinearOrder α] (o : Option α) (a : α) : α :=
  match o with
  | none => a
  | some m => Min.min m a

/-- The running-minimum invariant: the `running_min` components are exactly
the running minimums of the value components. -/
def Wf [LinearOrder α] (s : MinStack α) : Prop :=
  s.entries.map Prod.snd = runningMins (s.entries.map Prod.fst)

theorem listMin?_eq_none_iff [LinearOrder α] (l : List α) :
    listMin? l = none ↔ l = [] := by
  cases l <;> simp [listMin?]

theorem listMin?_concat [LinearOrder α] (l : List α) (a : α) :
    listMin? (l ++ [a]) = some (optMin (listMin? l) a) := by
  induction l with
  | nil => rfl
  | cons x l ih =>
    rw [List.cons_append]
    cases h : listMin? l with
    | none => simp [listMin?, optMin, ih, h]
    | some m => simp [listMin?, optMin, ih, h, min_assoc]

theorem runningMins_concat [LinearOrder α] (l : List α) (a : α) :
    runningMins (l ++ [a]) = runningMins l ++ [optMin (listMin? l) a] := by
  induction l with
  | nil => rfl
  | cons x l ih =>
    rw [List.cons_append]
    cases h : listMin? l with
    | none => simp [runningMins, listMin?, optMin, ih, h]
    | some m => simp [runningMins, listMin?, optMin, ih, h, min_assoc]

theorem getLast?_runningMins [LinearOrder α] (l : List α) :
    (runningMins l).getLast? = listMin? l := by
  induction l using List.reverseRecOn with
  | nil => rfl
  | append_singleton l a _ih =>
    rw [runningMins_concat, List.getLast?_concat, listMin?_concat]

theorem dropLast_runningMins [LinearOrder α] (l : List α) :
    (runningMins l).dropLast = runningMins l.dropLast := by
  induction l using List.reverseRecOn with
  | nil => rfl
  | append_singleton l a _ih =>
    rw [runningMins_concat, List.dropLast_concat, List.dropLast_concat]

theorem runningMins_getElem? [LinearOrder α] :
    ∀ (l : List α) (i : Nat), i < l.length →
      (runningMins l)[i]? = listMin? (l.take (i + 1)) := by
  intro l
  induction l with
  | nil => intro i h; simp at h
  | cons a l ih =>
    intro i h
    cases i with
    | zero => simp [runningMins, listMin?]
    | succ i =>
      have hi : i < l.length := by simpa using h
      simp only [runningMins, List.getElem?_cons_succ, List.getElem?_map, ih i hi,
        List.take_succ_cons]
      cases hm : listMin? (l.take (i + 1)) with
      | none =>
        rw [listMin?_eq_none_iff] at hm
        rcases List.take_eq_nil_iff.1 hm with h1 | h1
        · simp at h1
        · rw [h1] at hi; simp at hi
      | some m => simp [listMin?, hm]

theorem wf_new [LinearOrder α] : Wf (new : MinStack α) := rfl

theorem min_eq_listMin? [LinearOrder α] {s : MinStack α} (h : Wf s) :
    s.min = listMin? (s.entries.map Prod.fst) := by
  show (s.entries.getLast?).map Prod.snd = listMin? (s.entries.map Prod.fst)
  rw [← List.getLast?_map, h, getLast?_runningMins]

theorem wf_push [LinearOrder α] {s : MinStack α} (h : Wf s) (a : α) :
    Wf (s.push a) := by
  cases hm : s.min with
  | none =>
    have he : s.entries = [] := by
      have h0 : s.entries.getLast? = none := by
        rcases hx : s.entries.getLast? with _ | p
        · rfl
        · rw [MinStack.min, hx] at hm; simp at hm
      exact List.getLast?_eq_none_iff.1 h0
    show (s.push a).entries.map Prod.snd
      = runningMins ((s.push a).entries.map Prod.fst)
    simp [MinStack.push, hm, he, runningMins]
  | some c =>
    have hc : listMin? (s.entries.map Prod.fst) = some c := by
      rw [← min_eq_listMin? h]; exact hm
    show (s.push a).entries.map Prod.snd
      = runningMins ((s.push a).entries.map Prod.fst)
    simp only [MinStack.push, hm, List.map_append, List.map_cons, List.map_nil]
    rw [runningMins_concat, hc, h]
    rfl

theorem wf_pop [LinearOrder α] {s : MinStack α} (h : Wf s) : Wf ((s.pop).2) := by
  show (s.entries.dropLast).map Prod.snd
    = runningMins ((s.entries.dropLast).map Prod.fst)
  rw [List.map_dropLast, List.map_dropLast, h, dropLast_runningMins]

theorem wf_foldl_push [LinearOrder α] (l : List (α × α)) :
    ∀ {s : MinStack α}, Wf s → Wf (l.foldl (fun acc item => acc.push item.1) s) := by
  induction l with
  | nil => intro s h; exact h
  | cons p l ih => intro s h; exact ih (wf_push h p.1)

theorem wf_runMOps [LinearOrder α] (ops : List (MOp α)) : Wf (runMOps ops) := by
  suffices h : ∀ s : MinStack α, Wf s → Wf (ops.foldl runMOp s) from h new wf_new
  induction ops with
  | nil => intro s h; exact h
  | cons op rest ih =>
    intro s h
    cases op with
    | push a => exact ih _ (wf_push h a)
    | pop => exact ih _ (wf_pop h)
    | clear => exact ih _ wf_new
    | append other => exact ih _ (wf_foldl_push other h)

theorem push_fsts [LinearOrder α] (s : MinStack α) (a : α) :
    (s.push a).entries.map Prod.fst = s.entries.map Prod.fst ++ [a] := by
  cases hm : s.min <;> simp [MinStack.push, hm]

theorem foldl_push_fsts [LinearOrder α] (l : List α) :
    ∀ s : MinStack α,
      (l.foldl push s).entries.map Prod.fst = s.entries.map Prod.fst ++ l := by
  induction l with
  | nil => intro s; simp
  | cons a l ih =>
    intro s
    rw [List.foldl_cons, ih, push_fsts]
    simp

theorem fromVec_fsts [LinearOrder α] (l : List α) :
    (fromVec l).entries.map Prod.fst = l := by
  rw [fromVec, foldl_push_fsts]
  rfl

end MinStack

namespace MinStack

/-- C6: **MinStack running-minimum invariant.**  After every sequence of
`push`, `pop`, `append` and `clear` operations on a fresh `MinStack`, the
`running_min` components are exactly the running minimums of the value
components (for every `i`, `entries[i].running_min` is the minimum of
`entries[0..=i].value`); consequently `min()` returns the minimum of all
values currently in the stack and `none` exactly when the stack is empty. -/
theorem running_min_invariant (ops : List (MOp Int)) :
    (∀ i : Nat, i < (runMOps ops).entries.length →
      ((runMOps ops).entries.map Prod.snd)[i]?
        = listMin? (((runMOps ops).entries.map Prod.fst).take (i + 1))) ∧
    (runMOps ops).entries.map Prod.snd
      = runningMins ((runMOps ops).entries.map Prod.fst) ∧
    (runMOps ops).min = listMin? ((runMOps ops).entries.map Prod.fst) ∧
    ((runMOps ops).min = none ↔ (runMOps ops).entries = []) := by
  have hwf := wf_runMOps ops
  refine ⟨?_, hwf, min_eq_listMin? hwf, ?_⟩
  · intro i h
    rw [show ((runMOps ops).entries.map Prod.snd)[i]?
        = (runningMins ((runMOps ops).entries.map Prod.fst))[i]? from by rw [hwf],
      runningMins_getElem?]
    rw [List.length_map]
    exact h
  · rw [min_eq_listMin? hwf, listMin?_eq_none_iff, List.map_eq_nil_iff]

/-- Witness for C6 at a concrete input: after `push 3; push 1; push 2`, the
entry at index 1 has running minimum `min(3, 1) = 1`, and `min()` returns
`some 1`. -/
theorem running_min_invariant_witness :
    ((runMOps [MOp.push (3 : Int), MOp.push 1, MOp.push 2]).entries.map Prod.snd)[1]?
      = listMin?
          (((runMOps [MOp.push (3 : Int), MOp.push 1, MOp.push 2]).entries.map
            Prod.fst).take 2) ∧
    (runMOps [MOp.push (3 : Int), MOp.push 1, MOp.push 2]).min
      = listMin?
          ((runMOps [MOp.push (3 : Int), MOp.push 1, MOp.push 2]).entries.map
            Prod.fst) :=
  ⟨(running_min_invariant [MOp.push (3 : Int), MOp.push 1, MOp.push 2]).1 1
      (by decide),
    ((running_min_invariant [MOp.push (3 : Int), MOp.push 1, MOp.push 2]).2).2.1⟩

/-- C7: **MinStack append postcondition.**  For a stack `A` built by pushing
`as` in order and a stack `B` built by pushing `bs` in order,
`A.append(&mut B)` produces exactly the stack built by pushing `as ++ bs`
onto a fresh stack through the normal push path, and leaves `B` empty. -/
theorem append_spec (as bs : List Int) :
    (fromVec as).append (fromVec bs) = (fromVec (as ++ bs), new) := by
  show ((fromVec bs).entries.foldl (fun acc item => acc.push item.1) (fromVec as), (⟨[]⟩ : MinStack Int))
    = (fromVec (as ++ bs), new)
  have h1 : (fromVec bs).entries.foldl (fun acc item => acc.push item.1) (fromVec as)
      = ((fromVec bs).entries.map Prod.fst).foldl push (fromVec as) :=
    (List.foldl_map Prod.fst push (fromVec bs).entries (fromVec as)).symm
  rw [h1, fromVec_fsts]
  show (List.foldl push (List.foldl push new as) bs, (⟨[]⟩ : MinStack Int))
    = (fromVec (as ++ bs), new)
  rw [← List.foldl_append]
  rfl

/-- C9: **Totality / no panics.**  `MinStack::push`'s internal
`min().unwrap()` is unreachable — the fallible form `push?` (where `none`
models the panic) agrees with the total `push` on every state — and `pop`,
`peek` and `min` on each empty structure return the explicit absent result
`none` with the state unchanged rather than failing. -/
theorem total_no_panic :
    (∀ (s : MinStack Int) (a : Int), s.push? a = some (s.push a)) ∧
    pop (new : MinStack Int) = (none, new) ∧
    peek (new : MinStack Int) = none ∧
    min (new : MinStack Int) = none ∧
    QueueWithStack.Queue.pop (QueueWithStack.Queue.new : QueueWithStack.Queue Nat)
      = (none, QueueWithStack.Queue.new) ∧
    StackWithQueue.Stack.pop (StackWithQueue.Stack.new : StackWithQueue.Stack Nat)
      = (none, StackWithQueue.Stack.new) := by
  refine ⟨?_, rfl, rfl, rfl, by decide, by decide⟩
  intro s a
  rcases s with ⟨es⟩
  cases es with
  | nil => rfl
  | cons e es' =>
    rcases hx : (e :: es').getLast? with _ | p
    · exact absurd hx (by simp)
    · simp [push?, push, MinStack.min, hx]

end MinStack
